import Mathlib

/-!
Verification of the CookCLI cookbook generator (`tools/create_cookbook.py`).

Strings from the Python source are modelled as `List Char`; each Python
string operation used by the script (single-character `str.replace`,
`str.strip`, `str.split`, slicing, `str.find` / `str.rfind`, literal
`re.search`) is embedded as an executable Lean function with Python's
semantics.  The external converter process and the filesystem are modelled
as explicit inputs (process results, file lists, image oracles).
-/

set_option maxHeartbeats 1000000

namespace Cookbook

/-- Python whitespace predicate (`str.isspace` / default `strip`/`split`
behaviour), restricted to the ASCII whitespace characters. -/
def isPySpace (c : Char) : Bool :=
  c = ' ' || c = '\t' || c = '\n' || c = '\r' || c = '\x0b' || c = '\x0c'

/-- Python `str.lstrip()` (no argument): drop leading whitespace. -/
def lstripPy (s : List Char) : List Char :=
  s.dropWhile isPySpace

/-- Python `str.rstrip()` (no argument): drop trailing whitespace. -/
def rstripPy (s : List Char) : List Char :=
  (s.reverse.dropWhile isPySpace).reverse

/-- Python `str.strip()` (no argument). -/
def stripPy (s : List Char) : List Char :=
  rstripPy (lstripPy s)

/-- Python `str.replace(old, new)` for a single-character `old`:
every occurrence of `old` is replaced by `new`, in one left-to-right pass. -/
def pyReplaceChar (old : Char) (new : List Char) : List Char → List Char
  | [] => []
  | c :: rest => (if c = old then new else [c]) ++ pyReplaceChar old new rest

theorem pyReplaceChar_append (old : Char) (new : List Char) (a b : List Char) :
    pyReplaceChar old new (a ++ b) = pyReplaceChar old new a ++ pyReplaceChar old new b := by
  induction a with
  | nil => simp [pyReplaceChar]
  | cons c rest ih => simp [pyReplaceChar, ih]

theorem pyReplaceChar_of_not_mem (old : Char) (new : List Char) (s : List Char)
    (h : old ∉ s) : pyReplaceChar old new s = s := by
  induction s with
  | nil => rfl
  | cons c rest ih =>
      simp only [List.mem_cons, not_or] at h
      simp [pyReplaceChar, Ne.symm h.1, ih h.2]

/-- The ordered substitution table of `escape_latex` (the `replacements`
dict of the source, in its literal order: backslash first). -/
def escTable : List (Char × List Char) :=
  [('\\', "\\\\".data),
   ('\x7b', "\\\x7b".data),
   ('\x7d', "\\\x7d".data),
   ('$', "\\$".data),
   ('&', "\\&".data),
   ('#', "\\#".data),
   ('^', "\\^\x7b\x7d".data),
   ('_', "\\_".data),
   ('~', "\\~\x7b\x7d".data),
   ('%', "\\%".data),
   ('<', "\\textless\x7b\x7d".data),
   ('>', "\\textgreater\x7b\x7d".data),
   ('|', "\\textbar\x7b\x7d".data)]

/-- `CookbookGenerator.escape_latex`: apply each substitution of the
table in order, by repeated `str.replace`. -/
def escape_latex (s : List Char) : List Char :=
  escTable.foldl (fun t p => pyReplaceChar p.1 p.2 t) s

theorem escape_latex_append (a b : List Char) :
    escape_latex (a ++ b) = escape_latex a ++ escape_latex b := by
  simp [escape_latex, escTable, pyReplaceChar_append]

theorem escape_latex_table (p : Char × List Char) (h : p ∈ escTable) :
    escape_latex [p.1] = p.2 := by
  revert p h
  decide

theorem escape_latex_plain (c : Char) (h : c ∉ escTable.map Prod.fst) :
    escape_latex [c] = [c] := by
  simp only [escTable, List.map_cons, List.mem_cons, List.map_nil] at h
  push_neg at h
  obtain ⟨h1, h2, h3, h4, h5, h6, h7, h8, h9, h10, h11, h12, h13, -⟩ := h
  simp [escape_latex, escTable, pyReplaceChar, h1, h2, h3, h4, h5, h6, h7, h8,
    h9, h10, h11, h12, h13]

/-- A string is `Escaped` when it parses as a concatenation of escape
sequences produced by the substitution table and of characters that are
not in the table: no character of the table occurs outside an escape
sequence. -/
inductive Escaped : List Char → Prop
  | nil : Escaped []
  | tok (c : Char) (seq : List Char) (hmem : (c, seq) ∈ escTable) (rest : List Char) :
      Escaped rest → Escaped (seq ++ rest)
  | plain (c : Char) (hc : c ∉ escTable.map Prod.fst) (rest : List Char) :
      Escaped rest → Escaped (c :: rest)

/-- C2: for every input string, the output of `escape_latex` contains no
unescaped occurrence of any character of the substitution table — the
output is a concatenation of table escape sequences and non-table
characters. -/
theorem c2_escape_latex_fully_escaped (s : List Char) : Escaped (escape_latex s) := by
  induction s with
  | nil => exact Escaped.nil
  | cons c rest ih =>
      have hsplit : escape_latex (c :: rest) = escape_latex [c] ++ escape_latex rest := by
        have : (c :: rest) = [c] ++ rest := rfl
        rw [this, escape_latex_append]
      rw [hsplit]
      by_cases hc : c ∈ escTable.map Prod.fst
      · rw [List.mem_map] at hc
        obtain ⟨p, hp, hfst⟩ := hc
        rw [← hfst, escape_latex_table p hp]
        exact Escaped.tok p.1 p.2 hp _ ih
      · rw [escape_latex_plain c hc]
        exact Escaped.plain c hc _ ih

theorem char_eq_of_toNat_eq {a b : Char} (h : a.toNat = b.toNat) : a = b := by
  apply Char.ext
  rcases a with ⟨av, _⟩; rcases b with ⟨bv, _⟩
  rcases av with ⟨abv⟩; rcases bv with ⟨bbv⟩
  simp only [Char.toNat, UInt32.toNat] at h
  simp only []
  congr 1
  exact BitVec.toNat_eq.mpr h

theorem char_le_iff_toNat {a b : Char} : a ≤ b ↔ a.toNat ≤ b.toNat := by
  rw [Char.le_def, UInt32.le_def, BitVec.le_def]
  rfl

theorem toNat_ofNat_small (n : Nat) (h : n < 55296) : (Char.ofNat n).toNat = n := by
  simp only [Char.ofNat, Nat.isValidChar]
  rw [dif_pos (Or.inl h)]
  simp only [Char.ofNatAux, Char.toNat, UInt32.toNat]
  simp [BitVec.toNat_ofNat]

/-- ASCII model of the uppercase mapping used by Python `str.capitalize`
on the first character. -/
def pyUpper (c : Char) : Char :=
  if 'a' ≤ c ∧ c ≤ 'z' then Char.ofNat (c.toNat - 32) else c

/-- ASCII model of Python `str.lower` on one character (applied by
`str.capitalize` to the remaining characters). -/
def pyLower (c : Char) : Char :=
  if 'A' ≤ c ∧ c ≤ 'Z' then Char.ofNat (c.toNat + 32) else c

theorem pyUpper_cases (c : Char) :
    pyUpper c = c ∨ (97 ≤ c.toNat ∧ c.toNat ≤ 122 ∧ 65 ≤ (pyUpper c).toNat ∧ (pyUpper c).toNat ≤ 90) := by
  unfold pyUpper
  by_cases h : 'a' ≤ c ∧ c ≤ 'z'
  · right
    have h1 := char_le_iff_toNat.mp h.1
    have h2 := char_le_iff_toNat.mp h.2
    have ha : Char.toNat 'a' = 97 := by decide
    have hz : Char.toNat 'z' = 122 := by decide
    rw [ha] at h1; rw [hz] at h2
    rw [if_pos h, toNat_ofNat_small (c.toNat - 32) (by omega)]
    omega
  · left; rw [if_neg h]

theorem pyLower_cases (c : Char) :
    pyLower c = c ∨ (65 ≤ c.toNat ∧ c.toNat ≤ 90 ∧ 97 ≤ (pyLower c).toNat ∧ (pyLower c).toNat ≤ 122) := by
  unfold pyLower
  by_cases h : 'A' ≤ c ∧ c ≤ 'Z'
  · right
    have h1 := char_le_iff_toNat.mp h.1
    have h2 := char_le_iff_toNat.mp h.2
    have ha : Char.toNat 'A' = 65 := by decide
    have hz : Char.toNat 'Z' = 90 := by decide
    rw [ha] at h1; rw [hz] at h2
    rw [if_pos h, toNat_ofNat_small (c.toNat + 32) (by omega)]
    omega
  · left; rw [if_neg h]

theorem pyUpper_eq_self (c : Char) (h : ¬('a' ≤ c ∧ c ≤ 'z')) : pyUpper c = c := by
  simp [pyUpper, h]

theorem pyLower_eq_self (c : Char) (h : ¬('A' ≤ c ∧ c ≤ 'Z')) : pyLower c = c := by
  simp [pyLower, h]

theorem pyUpper_idem (c : Char) : pyUpper (pyUpper c) = pyUpper c := by
  rcases pyUpper_cases c with h | ⟨-, -, h65, h90⟩
  · rw [h, h]
  · apply pyUpper_eq_self
    rintro ⟨hle, -⟩
    have := char_le_iff_toNat.mp hle
    have ha : Char.toNat 'a' = 97 := by decide
    omega

theorem pyLower_idem (c : Char) : pyLower (pyLower c) = pyLower c := by
  rcases pyLower_cases c with h | ⟨-, -, h97, h122⟩
  · rw [h, h]
  · apply pyLower_eq_self
    rintro ⟨-, hle⟩
    have := char_le_iff_toNat.mp hle
    have hz : Char.toNat 'Z' = 90 := by decide
    omega

theorem isPySpace_eq_false_of_toNat (c : Char) (h33 : 33 ≤ c.toNat) :
    isPySpace c = false := by
  simp only [isPySpace, Bool.or_eq_false_iff, decide_eq_false_iff_not]
  refine ⟨⟨⟨⟨⟨?_, ?_⟩, ?_⟩, ?_⟩, ?_⟩, ?_⟩ <;>
    · rintro rfl
      exact absurd h33 (by decide)

theorem pyUpper_isPySpace (c : Char) (h : isPySpace c = false) :
    isPySpace (pyUpper c) = false := by
  rcases pyUpper_cases c with hc | ⟨-, -, h65, -⟩
  · rw [hc]; exact h
  · exact isPySpace_eq_false_of_toNat _ (by omega)

theorem pyLower_isPySpace (c : Char) (h : isPySpace c = false) :
    isPySpace (pyLower c) = false := by
  rcases pyLower_cases c with hc | ⟨-, -, h97, -⟩
  · rw [hc]; exact h
  · exact isPySpace_eq_false_of_toNat _ (by omega)

theorem pyUpper_ne_sep (c d : Char) (hd : d.toNat = 95 ∨ d.toNat = 45) (h : c ≠ d) :
    pyUpper c ≠ d := by
  rcases pyUpper_cases c with hc | ⟨-, -, h65, h90⟩
  · rw [hc]; exact h
  · intro he
    rw [he] at h65 h90
    omega

theorem pyLower_ne_sep (c d : Char) (hd : d.toNat = 95 ∨ d.toNat = 45) (h : c ≠ d) :
    pyLower c ≠ d := by
  rcases pyLower_cases c with hc | ⟨-, -, h97, h122⟩
  · rw [hc]; exact h
  · intro he
    rw [he] at h97 h122
    omega

/-- Python `str.capitalize()`: first character upper-cased, the rest
lower-cased (ASCII model). -/
def pyCapitalize : List Char → List Char
  | [] => []
  | c :: rest => pyUpper c :: rest.map pyLower

theorem pyCapitalize_idem (w : List Char) :
    pyCapitalize (pyCapitalize w) = pyCapitalize w := by
  cases w with
  | nil => rfl
  | cons c rest =>
      simp only [pyCapitalize, pyUpper_idem, List.map_map, List.cons.injEq, true_and]
      apply List.map_congr_left
      intro a _
      exact pyLower_idem a

/-- Python `str.split()` (no argument): split on runs of whitespace,
discarding empty words. -/
def splitWs : List Char → List (List Char)
  | [] => []
  | c :: rest =>
    if isPySpace c then splitWs rest
    else (c :: rest.takeWhile (fun d => !isPySpace d)) ::
      splitWs (rest.dropWhile (fun d => !isPySpace d))
termination_by s => s.length
decreasing_by
  · simp
  · have := List.Sublist.length_le (List.dropWhile_sublist (l := rest) (fun d => !isPySpace d))
    simp only [List.length_cons]
    omega

/-- Python `' '.join(ws)`. -/
def joinSp : List (List Char) → List Char
  | [] => []
  | [w] => w
  | w :: ws => w ++ ' ' :: joinSp ws

/-- `CookbookGenerator.format_chapter_name`: replace underscores and
hyphens with spaces, then capitalize each whitespace-separated word and
join the words with single spaces. -/
def format_chapter_name (name : List Char) : List Char :=
  joinSp ((splitWs (pyReplaceChar '-' [' '] (pyReplaceChar '_' [' '] name))).map pyCapitalize)

theorem takeWhile_append_of_all {α : Type} (p : α → Bool) (w r : List α)
    (hw : ∀ c ∈ w, p c = true) : (w ++ r).takeWhile p = w ++ r.takeWhile p := by
  induction w with
  | nil => simp
  | cons c w' ih =>
      have hc : p c = true := hw c (by simp)
      simp only [List.cons_append, List.takeWhile_cons, hc, if_true]
      rw [ih (fun d hd => hw d (by simp [hd]))]

theorem dropWhile_append_of_all {α : Type} (p : α → Bool) (w r : List α)
    (hw : ∀ c ∈ w, p c = true) : (w ++ r).dropWhile p = r.dropWhile p := by
  induction w with
  | nil => simp
  | cons c w' ih =>
      have hc : p c = true := hw c (by simp)
      simp only [List.cons_append, List.dropWhile_cons, hc, if_true]
      exact ih (fun d hd => hw d (by simp [hd]))

/-- A word as produced by Python `str.split()`: non-empty, without
whitespace. -/
def GoodWord (w : List Char) : Prop := w ≠ [] ∧ ∀ c ∈ w, isPySpace c = false

theorem splitWs_good_single (w : List Char) (hw : GoodWord w) : splitWs w = [w] := by
  obtain ⟨hne, hall⟩ := hw
  cases w with
  | nil => exact absurd rfl hne
  | cons c w' =>
      have hc : isPySpace c = false := hall c (by simp)
      have hw' : ∀ d ∈ w', (!isPySpace d) = true := by
        intro d hd; simp [hall d (by simp [hd])]
      rw [splitWs]
      rw [if_neg (by simp [hc])]
      rw [List.takeWhile_eq_self_iff.mpr hw', List.dropWhile_eq_nil_iff.mpr (fun d hd => hw' d hd)]
      simp [splitWs]

theorem splitWs_good_append (w r : List Char) (hw : GoodWord w) :
    splitWs (w ++ ' ' :: r) = w :: splitWs r := by
  obtain ⟨hne, hall⟩ := hw
  cases w with
  | nil => exact absurd rfl hne
  | cons c w' =>
      have hc : isPySpace c = false := hall c (by simp)
      have hw' : ∀ d ∈ w', (!isPySpace d) = true := by
        intro d hd; simp [hall d (by simp [hd])]
      rw [List.cons_append, splitWs]
      rw [if_neg (by simp [hc])]
      rw [takeWhile_append_of_all _ w' (' ' :: r) hw',
        dropWhile_append_of_all _ w' (' ' :: r) hw']
      have hsp : (!isPySpace ' ') = false := by decide
      rw [List.takeWhile_cons, List.dropWhile_cons]
      simp only [hsp, if_false, Bool.false_eq_true]
      rw [List.append_nil, splitWs]
      rw [if_pos (by decide)]

theorem splitWs_joinSp (ws : List (List Char)) (h : ∀ w ∈ ws, GoodWord w) :
    splitWs (joinSp ws) = ws := by
  induction ws with
  | nil => simp [splitWs, joinSp]
  | cons w ws2 ih =>
      cases ws2 with
      | nil => exact splitWs_good_single w (h w (by simp))
      | cons w2 ws3 =>
          rw [show joinSp (w :: w2 :: ws3) = w ++ ' ' :: joinSp (w2 :: ws3) from rfl]
          rw [splitWs_good_append w _ (h w (by simp))]
          rw [ih (fun u hu => h u (by simp [hu]))]

theorem mem_joinSp {c : Char} {ws : List (List Char)} (h : c ∈ joinSp ws) :
    c = ' ' ∨ ∃ w ∈ ws, c ∈ w := by
  induction ws with
  | nil => simp [joinSp] at h
  | cons w ws2 ih =>
      cases ws2 with
      | nil =>
          right
          exact ⟨w, by simp, h⟩
      | cons w2 ws3 =>
          rw [show joinSp (w :: w2 :: ws3) = w ++ ' ' :: joinSp (w2 :: ws3) from rfl] at h
          rw [List.mem_append, List.mem_cons] at h
          rcases h with h | h | h
          · exact Or.inr ⟨w, by simp, h⟩
          · exact Or.inl h
          · rcases ih h with h' | ⟨u, hu, hcu⟩
            · exact Or.inl h'
            · exact Or.inr ⟨u, by simp [List.mem_cons] at hu ⊢; tauto, hcu⟩

theorem goodWord_of_mem_splitWs {w s : List Char} (hw : w ∈ splitWs s) : GoodWord w := by
  induction s using splitWs.induct with
  | case1 => simp [splitWs] at hw
  | case2 c rest hsp ih =>
      rw [splitWs, if_pos hsp] at hw
      exact ih hw
  | case3 c rest hsp ih =>
      rw [splitWs, if_neg hsp] at hw
      rw [List.mem_cons] at hw
      rcases hw with rfl | hw
      · refine ⟨by simp, ?_⟩
        intro d hd
        rw [List.mem_cons] at hd
        rcases hd with rfl | hd
        · simpa using hsp
        · have := List.mem_takeWhile_imp hd
          simpa using this
      · exact ih hw

theorem mem_of_mem_splitWs {c : Char} {w s : List Char} (hw : w ∈ splitWs s)
    (hc : c ∈ w) : c ∈ s := by
  induction s using splitWs.induct with
  | case1 => simp [splitWs] at hw
  | case2 d rest hsp ih =>
      rw [splitWs, if_pos hsp] at hw
      exact List.mem_cons_of_mem d (ih hw)
  | case3 d rest hsp ih =>
      rw [splitWs, if_neg hsp] at hw
      rw [List.mem_cons] at hw
      rcases hw with rfl | hw
      · rw [List.mem_cons] at hc
        rcases hc with rfl | hc
        · simp
        · exact List.mem_cons_of_mem d ((List.takeWhile_sublist _).mem hc)
      · exact List.mem_cons_of_mem d ((List.dropWhile_sublist _).mem (ih hw))

theorem mem_pyReplaceChar {c old : Char} {new s : List Char}
    (h : c ∈ pyReplaceChar old new s) : c ∈ new ∨ (c ∈ s ∧ c ≠ old) := by
  induction s with
  | nil => simp [pyReplaceChar] at h
  | cons d rest ih =>
      rw [pyReplaceChar, List.mem_append] at h
      rcases h with h | h
      · by_cases hd : d = old
        · rw [if_pos hd] at h
          exact Or.inl h
        · rw [if_neg hd, List.mem_singleton] at h
          subst h
          exact Or.inr ⟨by simp, hd⟩
      · rcases ih h with h' | ⟨hm, hne⟩
        · exact Or.inl h'
        · exact Or.inr ⟨by simp [hm], hne⟩

theorem goodWord_pyCapitalize {w : List Char} (h : GoodWord w) :
    GoodWord (pyCapitalize w) := by
  obtain ⟨hne, hall⟩ := h
  cases w with
  | nil => exact absurd rfl hne
  | cons c rest =>
      refine ⟨by simp [pyCapitalize], ?_⟩
      intro d hd
      rw [pyCapitalize, List.mem_cons] at hd
      rcases hd with rfl | hd
      · exact pyUpper_isPySpace c (hall c (by simp))
      · rw [List.mem_map] at hd
        obtain ⟨e, he, rfl⟩ := hd
        exact pyLower_isPySpace e (hall e (by simp [he]))

theorem format_no_sep (s : List Char) (d : Char) (hd : d.toNat = 95 ∨ d.toNat = 45) :
    d ∉ format_chapter_name s := by
  intro hmem
  unfold format_chapter_name at hmem
  have hdsp : d ≠ ' ' := by
    intro h
    rw [h] at hd
    exact absurd hd (by decide)
  have hnorep : d ∉ pyReplaceChar '-' [' '] (pyReplaceChar '_' [' '] s) := by
    intro hin
    rcases mem_pyReplaceChar hin with h | ⟨hin2, hne2⟩
    · exact hdsp (List.mem_singleton.mp h)
    · rcases mem_pyReplaceChar hin2 with h | ⟨-, hne1⟩
      · exact hdsp (List.mem_singleton.mp h)
      · rcases hd with h95 | h45
        · exact hne1 (char_eq_of_toNat_eq (by rw [h95]; decide))
        · exact hne2 (char_eq_of_toNat_eq (by rw [h45]; decide))
  rcases mem_joinSp hmem with h | ⟨w, hw, hdw⟩
  · exact hdsp h
  · rw [List.mem_map] at hw
    obtain ⟨w0, hw0, rfl⟩ := hw
    cases w0 with
    | nil => simp [pyCapitalize] at hdw
    | cons c rest =>
        rw [pyCapitalize, List.mem_cons] at hdw
        rcases hdw with hdw | hdw
        · have hcmem : c ∈ pyReplaceChar '-' [' '] (pyReplaceChar '_' [' '] s) :=
            mem_of_mem_splitWs hw0 (by simp)
          have : c ≠ d := fun h => hnorep (h ▸ hcmem)
          exact pyUpper_ne_sep c d hd this hdw.symm
        · rw [List.mem_map] at hdw
          obtain ⟨e, he, hde⟩ := hdw
          have hemem : e ∈ pyReplaceChar '-' [' '] (pyReplaceChar '_' [' '] s) :=
            mem_of_mem_splitWs hw0 (by simp [he])
          have : e ≠ d := fun h => hnorep (h ▸ hemem)
          exact pyLower_ne_sep e d hd this hde

/-- C10: `format_chapter_name` is idempotent — formatting an
already-formatted chapter name returns it unchanged. -/
theorem c10_format_chapter_name_idem (s : List Char) :
    format_chapter_name (format_chapter_name s) = format_chapter_name s := by
  have h95 : ('_').toNat = 95 := by decide
  have h45 : ('-').toNat = 45 := by decide
  have h1 : pyReplaceChar '_' [' '] (format_chapter_name s) = format_chapter_name s :=
    pyReplaceChar_of_not_mem _ _ _ (format_no_sep s '_' (Or.inl h95))
  have h2 : pyReplaceChar '-' [' '] (format_chapter_name s) = format_chapter_name s :=
    pyReplaceChar_of_not_mem _ _ _ (format_no_sep s '-' (Or.inr h45))
  have hgood : ∀ w ∈ (splitWs (pyReplaceChar '-' [' '] (pyReplaceChar '_' [' '] s))).map pyCapitalize,
      GoodWord w := by
    intro w hw
    rw [List.mem_map] at hw
    obtain ⟨w0, hw0, rfl⟩ := hw
    exact goodWord_pyCapitalize (goodWord_of_mem_splitWs hw0)
  show joinSp ((splitWs (pyReplaceChar '-' [' '] (pyReplaceChar '_' [' ']
      (format_chapter_name s)))).map pyCapitalize) = format_chapter_name s
  rw [h1, h2]
  conv_lhs =>
    rw [show format_chapter_name s
      = joinSp ((splitWs (pyReplaceChar '-' [' '] (pyReplaceChar '_' [' '] s))).map pyCapitalize)
      from rfl]
  rw [splitWs_joinSp _ hgood, List.map_map]
  show joinSp _ = joinSp _
  congr 1
  apply List.map_congr_left
  intro w _
  exact pyCapitalize_idem w

/-- The metadata mapping: a fixed closed set of seven keys, each
optionally bound to a captured string (a key absent from the Python dict
is `none`). -/
structure Metadata where
  description : Option (List Char)
  tags : Option (List Char)
  servings : Option (List Char)
  prep_time : Option (List Char)
  cook_time : Option (List Char)
  author : Option (List Char)
  source : Option (List Char)
deriving DecidableEq

/-- The seven fixed metadata keys, in the order of the `patterns` dict. -/
inductive MKey
  | description | tags | servings | prep_time | cook_time | author | source
deriving DecidableEq

/-- The literal part of the `re.search` pattern for each key
(`% LABEL: ` — the regex suffix `(.+)` is the capture handled by
`matchAt`). -/
def labelPat : MKey → List Char
  | .description => "% DESCRIPTION: ".data
  | .tags => "% TAGS: ".data
  | .servings => "% SERVINGS: ".data
  | .prep_time => "% PREP_TIME: ".data
  | .cook_time => "% COOK_TIME: ".data
  | .author => "% AUTHOR: ".data
  | .source => "% SOURCE: ".data

def getMeta : MKey → Metadata → Option (List Char)
  | .description, m => m.description
  | .tags, m => m.tags
  | .servings, m => m.servings
  | .prep_time, m => m.prep_time
  | .cook_time, m => m.cook_time
  | .author, m => m.author
  | .source, m => m.source

/-- One attempted match of the pattern `LABEL(.+)` at the start of `s`:
the literal must be a prefix and at least one non-newline character must
follow; the capture is the maximal run of non-newline characters. -/
def matchAt (pat s : List Char) : Option (List Char) :=
  if pat.isPrefixOf s then
    match s.drop pat.length with
    | [] => none
    | c :: rest => if c = '\n' then none else some (c :: rest.takeWhile (fun d => !(d = '\n')))
  else none

/-- `re.search` for a pattern `LABEL(.+)`: scan left to right and return
the first match's capture. -/
def reSearchCapture (pat : List Char) : List Char → Option (List Char)
  | [] => none
  | s@(_ :: rest) =>
    match matchAt pat s with
    | some v => some v
    | none => reSearchCapture pat rest

/-- `CookbookGenerator.extract_metadata`: search the content once per
fixed pattern, first match wins, missing patterns leave the key absent. -/
def extract_metadata (s : List Char) : Metadata where
  description := reSearchCapture (labelPat .description) s
  tags := reSearchCapture (labelPat .tags) s
  servings := reSearchCapture (labelPat .servings) s
  prep_time := reSearchCapture (labelPat .prep_time) s
  cook_time := reSearchCapture (labelPat .cook_time) s
  author := reSearchCapture (labelPat .author) s
  source := reSearchCapture (labelPat .source) s

theorem getMeta_extract (k : MKey) (s : List Char) :
    getMeta k (extract_metadata s) = reSearchCapture (labelPat k) s := by
  cases k <;> rfl

theorem reSearchCapture_eq_none (pat s : List Char)
    (h : ∀ i, i < s.length → matchAt pat (s.drop i) = none) :
    reSearchCapture pat s = none := by
  induction s with
  | nil => rfl
  | cons c rest ih =>
      have h0 : matchAt pat (c :: rest) = none := by
        have := h 0 (by simp)
        simpa using this
      rw [reSearchCapture, h0]
      exact ih (fun i hi => by
        have := h (i + 1) (by simp; omega)
        simpa [List.drop_succ_cons] using this)

theorem reSearchCapture_of_matchAt {pat v : List Char} (s : List Char) (hs : s ≠ [])
    (h : matchAt pat s = some v) : reSearchCapture pat s = some v := by
  cases s with
  | nil => exact absurd rfl hs
  | cons c rest => rw [reSearchCapture, h]

theorem matchAt_prefix (pat v b : List Char) (hv : v ≠ []) (hvn : ∀ c ∈ v, c ≠ '\n')
    (hb : b = [] ∨ ∃ t, b = '\n' :: t) :
    matchAt pat (pat ++ (v ++ b)) = some v := by
  unfold matchAt
  rw [if_pos (List.isPrefixOf_iff_prefix.mpr (List.prefix_append pat (v ++ b)))]
  rw [List.drop_left]
  cases v with
  | nil => exact absurd rfl hv
  | cons c v' =>
      simp only [List.cons_append]
      rw [if_neg (hvn c (by simp))]
      congr 1
      have hv' : ∀ d ∈ v', (!(d = '\n')) = true := by
        intro d hd
        simp [hvn d (by simp [hd])]
      rw [takeWhile_append_of_all _ v' b hv']
      rcases hb with rfl | ⟨t, rfl⟩
      · simp [List.takeWhile_eq_self_iff.mpr hv']
      · rw [List.takeWhile_cons]
        simp [List.takeWhile_eq_self_iff.mpr hv']

theorem reSearchCapture_first (pat a v b : List Char)
    (hv : v ≠ []) (hvn : ∀ c ∈ v, c ≠ '\n') (hb : b = [] ∨ ∃ t, b = '\n' :: t)
    (hearlier : ∀ i, i < a.length → matchAt pat ((a ++ (pat ++ (v ++ b))).drop i) = none) :
    reSearchCapture pat (a ++ (pat ++ (v ++ b))) = some v := by
  induction a with
  | nil =>
      rw [List.nil_append]
      apply reSearchCapture_of_matchAt
      · cases pat with
        | nil => cases v with
          | nil => exact absurd rfl hv
          | cons c v' => simp
        | cons p ps => simp
      · exact matchAt_prefix pat v b hv hvn hb
  | cons c a' ih =>
      rw [List.cons_append]
      have h0 : matchAt pat (c :: (a' ++ (pat ++ (v ++ b)))) = none := by
        have := hearlier 0 (by simp)
        rw [List.drop_zero, List.cons_append] at this
        exact this
      rw [reSearchCapture, h0]
      apply ih
      intro i hi
      have := hearlier (i + 1) (by simp only [List.length_cons]; omega)
      rw [List.cons_append, List.drop_succ_cons] at this
      exact this

/-- C9: each metadata key's value is the capture of the first line of the
input matching `% LABEL: value` (first occurrence wins, later duplicates
ignored), and a key whose pattern matches nowhere is simply absent. -/
theorem c9_extract_metadata_first_match (k : MKey) (s : List Char) :
    ((∀ i, i < s.length → matchAt (labelPat k) (s.drop i) = none) →
      getMeta k (extract_metadata s) = none)
    ∧ (∀ a v b, s = a ++ (labelPat k ++ (v ++ b)) → v ≠ [] → (∀ c ∈ v, c ≠ '\n') →
        (b = [] ∨ ∃ t, b = '\n' :: t) →
        (∀ i, i < a.length → matchAt (labelPat k) (s.drop i) = none) →
        getMeta k (extract_metadata s) = some v) := by
  constructor
  · intro h
    rw [getMeta_extract]
    exact reSearchCapture_eq_none _ _ h
  · rintro a v b rfl hv hvn hb hearlier
    rw [getMeta_extract]
    exact reSearchCapture_first (labelPat k) a v b hv hvn hb hearlier

theorem c9_witness :
    getMeta MKey.tags (extract_metadata ("x\n% TAGS: a, b\n% TAGS: zz\n".data)) = some ("a, b".data)
    ∧ getMeta MKey.description (extract_metadata ("x\n% TAGS: a, b\n% TAGS: zz\n".data)) = none := by
  constructor
  · exact (c9_extract_metadata_first_match MKey.tags _).2
      ("x\n".data) ("a, b".data) ("\n% TAGS: zz\n".data)
      (by decide) (by decide) (by decide)
      (Or.inr ⟨"% TAGS: zz\n".data, by decide⟩) (by decide)
  · exact (c9_extract_metadata_first_match MKey.description _).1 (by decide)

/-- First index at which the literal pattern `pat` occurs in `s`
(position of a literal `re.search` match, or `str.find` / `-1` as
`none`). -/
def findIdx (pat : List Char) : List Char → Option Nat
  | [] => if pat.isPrefixOf ([] : List Char) then some 0 else none
  | c :: rest =>
    if pat.isPrefixOf (c :: rest) then some 0
    else (findIdx pat rest).map (· + 1)

/-- Python `s.find(ch, start)`: first index `≥ start` holding `ch`
(`none` for `-1`). -/
def findCharFrom (ch : Char) (s : List Char) (start : Nat) : Option Nat :=
  (findIdx [ch] (s.drop start)).map (start + ·)

/-- Python `s.rfind(ch, 0, stop)`: last index `< stop` holding `ch`
(`none` for `-1`). -/
def rfindBefore (ch : Char) (s : List Char) (stop : Nat) : Option Nat :=
  match findIdx [ch] ((s.take stop).reverse) with
  | none => none
  | some k => some ((s.take stop).length - 1 - k)

/-- Clamp one Python slice bound to an actual index: negative values
count from the end, out-of-range values are clamped. -/
def pyIdx (n : Nat) (i : Int) : Nat :=
  if i < 0 then (i + n).toNat else min i.toNat n

/-- Python `s[a:b]` (step 1). -/
def pySlice (s : List Char) (a b : Int) : List Char :=
  (s.take (pyIdx s.length b)).drop (pyIdx s.length a)

def beginMarker : List Char := "% BEGIN_RECIPE_CONTENT".data

def endMarker : List Char := "% END_RECIPE_CONTENT".data

def beginTitle : List Char := "% BEGIN_TITLE".data

def endTitle : List Char := "% END_TITLE".data

/-- The title-block removal step of `get_recipe_latex`: if both title
markers are found, drop the text from the start of the begin marker to
the newline following the end marker (by `lstrip` of the tail). -/
def removeTitle (rc : List Char) : List Char :=
  match findIdx beginTitle rc, findIdx endTitle rc with
  | some ts, some te =>
      let teEnd := te + endTitle.length
      let pos := match findCharFrom '\n' rc teEnd with
        | some p => p
        | none => teEnd
      rc.take ts ++ lstripPy (rc.drop pos)
  | _, _ => rc

/-- The marker-delimited content extraction of `get_recipe_latex`
(lines 66–89 of the source): locate both markers, slice from the
character after the newline following the begin marker's start to the
newline preceding the end marker's start, strip, and remove the title
block.  `none` when either marker is missing. -/
def betweenMarkers (content : List Char) : Option (List Char) :=
  match findIdx beginMarker content, findIdx endMarker content with
  | some bs, some es =>
      let start_pos : Int := (match findCharFrom '\n' content bs with
        | some i => (i : Int)
        | none => -1) + 1
      let end_pos : Int := match rfindBefore '\n' content es with
        | some i => (i : Int)
        | none => -1
      some (removeTitle (stripPy (pySlice content start_pos end_pos)))
  | _, _ => none

/-- Result of one `subprocess.run` invocation. -/
structure ProcResult where
  returncode : Int
  stdout : List Char
  stderr : List Char

/-- Python `sub in s` (substring containment). -/
def listInfix (pat : List Char) : List Char → Bool
  | [] => pat.isPrefixOf ([] : List Char)
  | c :: rest => pat.isPrefixOf (c :: rest) || listInfix pat rest

def notFoundSig : List Char := "not found".data

def emptyMeta : Metadata := ⟨none, none, none, none, none, none, none⟩

/-- Processing of a completed converter invocation by
`get_recipe_latex`: non-zero exit yields `(none, {})`; otherwise the
metadata is extracted from the full standard output and the content is
the marker-delimited extraction (`none` when a marker is missing). -/
def processResult (r : ProcResult) : Option (List Char) × Metadata :=
  if r.returncode ≠ 0 then (none, emptyMeta)
  else
    match betweenMarkers r.stdout with
    | some rc => (some rc, extract_metadata r.stdout)
    | none => (none, extract_metadata r.stdout)

/-- `CookbookGenerator.get_recipe_latex`, as a function of the outcomes
of the two possible process invocations.  `primary`/`fallback` are the
results of the `cook` and `cargo run` invocations (`none` models the
process failing to start, which raises and is caught by the handler).
The boolean records whether the fallback invocation was attempted. -/
def get_recipe_latex (primary fallback : Option ProcResult) :
    (Option (List Char) × Metadata) × Bool :=
  match primary with
  | none => ((none, emptyMeta), false)
  | some r =>
      if r.returncode ≠ 0 ∧ listInfix notFoundSig r.stderr = true then
        match fallback with
        | none => ((none, emptyMeta), true)
        | some r2 => (processResult r2, true)
      else (processResult r, false)

/-- C3: the fallback (cargo) invocation is attempted exactly when the
primary invocation ran and exited non-zero with the "not found"
signature in its standard error; a primary start failure, or any other
non-zero exit, yields `(none, {})` without attempting the fallback. -/
theorem c3_fallback_only_on_tool_missing (primary fallback : Option ProcResult) :
    ((get_recipe_latex primary fallback).2 = true ↔
      ∃ r, primary = some r ∧ r.returncode ≠ 0 ∧ listInfix notFoundSig r.stderr = true)
    ∧ (primary = none → get_recipe_latex primary fallback = ((none, emptyMeta), false))
    ∧ (∀ r, primary = some r → r.returncode ≠ 0 →
        listInfix notFoundSig r.stderr = false →
        get_recipe_latex primary fallback = ((none, emptyMeta), false)) := by
  refine ⟨?_, ?_, ?_⟩
  · cases primary with
    | none => simp [get_recipe_latex]
    | some r =>
        constructor
        · intro h
          by_cases hc : r.returncode ≠ 0 ∧ listInfix notFoundSig r.stderr = true
          · exact ⟨r, rfl, hc⟩
          · have hfalse : (get_recipe_latex (some r) fallback).2 = false := by
              simp only [get_recipe_latex, if_neg hc]
            rw [hfalse] at h
            exact absurd h (by decide)
        · rintro ⟨r', hr', hc⟩
          injection hr' with he
          subst he
          simp only [get_recipe_latex, if_pos hc]
          cases fallback <;> rfl
  · rintro rfl
    rfl
  · rintro r rfl hrc hsig
    have hc : ¬(r.returncode ≠ 0 ∧ listInfix notFoundSig r.stderr = true) := by
      rintro ⟨-, h⟩
      rw [hsig] at h
      exact absurd h (by decide)
    simp only [get_recipe_latex, if_neg hc]
    simp only [processResult, if_pos hrc]

theorem c3_witness :
    get_recipe_latex (some ⟨1, [], "x".data⟩) (some ⟨0, [], []⟩) = ((none, emptyMeta), false)
    ∧ get_recipe_latex none (some ⟨0, [], []⟩) = ((none, emptyMeta), false)
    ∧ (get_recipe_latex (some ⟨1, [], "cook: not found".data⟩) none).2 = true := by
  refine ⟨?_, ?_, ?_⟩
  · exact (c3_fallback_only_on_tool_missing (some ⟨1, [], "x".data⟩) (some ⟨0, [], []⟩)).2.2
      ⟨1, [], "x".data⟩ rfl (by decide) (by decide)
  · exact (c3_fallback_only_on_tool_missing none (some ⟨0, [], []⟩)).2.1 rfl
  · exact (c3_fallback_only_on_tool_missing (some ⟨1, [], "cook: not found".data⟩) none).1.mpr
      ⟨⟨1, [], "cook: not found".data⟩, rfl, by decide, by decide⟩

/-- C5: whenever the used invocation exits zero, the metadata is
extracted from the full raw standard output regardless of marker
presence, and a missing begin or end marker yields absent content paired
with that metadata (for both the primary and the fallback invocation). -/
theorem c5_missing_marker_keeps_metadata (fallback : Option ProcResult) (r : ProcResult) :
    (r.returncode = 0 →
      (get_recipe_latex (some r) fallback).1.2 = extract_metadata r.stdout
      ∧ ((findIdx beginMarker r.stdout = none ∨ findIdx endMarker r.stdout = none) →
          (get_recipe_latex (some r) fallback).1
            = (none, extract_metadata r.stdout)))
    ∧ (∀ r1, r1.returncode ≠ 0 → listInfix notFoundSig r1.stderr = true → r.returncode = 0 →
        (get_recipe_latex (some r1) (some r)).1.2 = extract_metadata r.stdout
        ∧ ((findIdx beginMarker r.stdout = none ∨ findIdx endMarker r.stdout = none) →
            (get_recipe_latex (some r1) (some r)).1
              = (none, extract_metadata r.stdout))) := by
  have hproc : r.returncode = 0 →
      (processResult r).2 = extract_metadata r.stdout
      ∧ ((findIdx beginMarker r.stdout = none ∨ findIdx endMarker r.stdout = none) →
          processResult r = (none, extract_metadata r.stdout)) := by
    intro h0
    have hmk : (findIdx beginMarker r.stdout = none ∨ findIdx endMarker r.stdout = none) →
        betweenMarkers r.stdout = none := by
      intro hmiss
      rcases h2 : findIdx beginMarker r.stdout with - | i
      · simp [betweenMarkers, h2]
      · rcases h3 : findIdx endMarker r.stdout with - | j
        · simp [betweenMarkers, h2, h3]
        · exfalso
          rcases hmiss with hm | hm
          · rw [hm] at h2; exact Option.noConfusion h2
          · rw [hm] at h3; exact Option.noConfusion h3
    have hnz : ¬(r.returncode ≠ 0) := by simp [h0]
    rw [processResult, if_neg hnz]
    constructor
    · rcases hbm : betweenMarkers r.stdout with - | rc <;> simp [hbm]
    · intro hmiss
      rw [hmk hmiss]
  have hnofb : r.returncode = 0 → ¬(r.returncode ≠ 0 ∧ listInfix notFoundSig r.stderr = true) := by
    rintro h0 ⟨h, -⟩
    exact h h0
  constructor
  · intro h0
    simp only [get_recipe_latex, if_neg (hnofb h0)]
    exact hproc h0
  · intro r1 hrc1 hsig h0
    have hcond : r1.returncode ≠ 0 ∧ listInfix notFoundSig r1.stderr = true := ⟨hrc1, hsig⟩
    simp only [get_recipe_latex, if_pos hcond]
    exact hproc h0

theorem c5_witness :
    (get_recipe_latex (some ⟨0, "% TAGS: t\nx".data, []⟩) none).1
      = (none, extract_metadata ("% TAGS: t\nx".data)) :=
  ((c5_missing_marker_keeps_metadata none ⟨0, "% TAGS: t\nx".data, []⟩).1 rfl).2
    (Or.inl (by decide))

/-- Step 7 of §4.3 as the specification words it: remove the title
sub-block in its entirety, including its trailing newline (and nothing
more).  Second definition, following the specification's words, for
comparison against the source-derived `removeTitle`. -/
def specRemoveTitle (mid : List Char) : List Char :=
  match findIdx beginTitle mid, findIdx endTitle mid with
  | some ts, some te =>
      (match findCharFrom '\n' mid (te + endTitle.length) with
       | some p => mid.take ts ++ mid.drop (p + 1)
       | none => mid.take ts)
  | _, _ => mid

/-- Steps 6–7 of §4.3 as the specification words them: the content
strictly between the line following the begin marker and the line
preceding the end marker, trimmed, with the title sub-block removed
including its trailing newline. -/
def specCleanContent (content : List Char) : Option (List Char) :=
  match findIdx beginMarker content, findIdx endMarker content with
  | some bs, some es =>
      match findCharFrom '\n' content bs, rfindBefore '\n' content es with
      | some nb, some ne => some (specRemoveTitle (stripPy ((content.take ne).drop (nb + 1))))
      | _, _ => none
  | _, _ => none

/-- The amended step 7: the title sub-block is removed including its
trailing newline, and any further leading whitespace after the removed
block is stripped as well (which is what the code's `lstrip` does). -/
def specRemoveTitleLstrip (mid : List Char) : List Char :=
  match findIdx beginTitle mid, findIdx endTitle mid with
  | some ts, some te =>
      (match findCharFrom '\n' mid (te + endTitle.length) with
       | some p => mid.take ts ++ lstripPy (mid.drop (p + 1))
       | none => mid.take ts ++ lstripPy (mid.drop (te + endTitle.length)))
  | _, _ => mid

/-- The amended extraction: as `specCleanContent`, with the amended
title-block removal. -/
def specCleanContentAmended (content : List Char) : Option (List Char) :=
  match findIdx beginMarker content, findIdx endMarker content with
  | some bs, some es =>
      match findCharFrom '\n' content bs, rfindBefore '\n' content es with
      | some nb, some ne =>
          some (specRemoveTitleLstrip (stripPy ((content.take ne).drop (nb + 1))))
      | _, _ => none
  | _, _ => none

/-- A marker-delimited converter output whose title block is followed by
a blank line. -/
def exContent : List Char :=
  "% BEGIN_RECIPE_CONTENT\n% BEGIN_TITLE\nT\n% END_TITLE\n\nbody\n% END_RECIPE_CONTENT".data

/-- C4 counterexample: on a converter output with both markers present,
a title sub-block, and a blank line after the title block, the code does
not return the content with only the title block and its trailing
newline removed — it additionally strips the following whitespace. -/
theorem c4_counterexample :
    betweenMarkers exContent = some ("body".data)
    ∧ specCleanContent exContent = some ("\nbody".data)
    ∧ (("body".data : List Char) == ("\nbody".data : List Char)) = false := by
  refine ⟨by decide, by decide, by decide⟩

theorem findIdx_add_len_le (pat : List Char) (s : List Char) (i : Nat)
    (h : findIdx pat s = some i) : i + pat.length ≤ s.length := by
  induction s generalizing i with
  | nil =>
      rw [findIdx] at h
      split at h
      · rename_i hpre
        have := (List.isPrefixOf_iff_prefix.mp hpre).length_le
        simp at h
        omega
      · exact Option.noConfusion h
  | cons c rest ih =>
      rw [findIdx] at h
      split at h
      · rename_i hpre
        have := (List.isPrefixOf_iff_prefix.mp hpre).length_le
        have h0 : i = 0 := by simpa using h.symm
        subst h0
        simpa using this
      · rw [Option.map_eq_some'] at h
        obtain ⟨j, hj, rfl⟩ := h
        have := ih j hj
        simp only [List.length_cons]
        omega

theorem findIdx_isPrefix (pat : List Char) (s : List Char) (i : Nat)
    (h : findIdx pat s = some i) : pat.isPrefixOf (s.drop i) = true := by
  induction s generalizing i with
  | nil =>
      rw [findIdx] at h
      split at h
      · rename_i hpre
        have h0 : i = 0 := by simpa using h.symm
        subst h0
        exact hpre
      · exact Option.noConfusion h
  | cons c rest ih =>
      rw [findIdx] at h
      split at h
      · rename_i hpre
        have h0 : i = 0 := by simpa using h.symm
        subst h0
        exact hpre
      · rw [Option.map_eq_some'] at h
        obtain ⟨j, hj, rfl⟩ := h
        rw [List.drop_succ_cons]
        exact ih j hj

theorem findCharFrom_drop (ch : Char) (s : List Char) (start p : Nat)
    (h : findCharFrom ch s start = some p) : ∃ t, s.drop p = ch :: t := by
  rw [findCharFrom, Option.map_eq_some'] at h
  obtain ⟨k, hk, hkp⟩ := h
  subst hkp
  have hpre := findIdx_isPrefix [ch] (s.drop start) k hk
  rw [List.drop_drop] at hpre
  rcases hd : (s.drop (start + k)) with - | ⟨c, t⟩
  · rw [hd] at hpre
    simp [List.isPrefixOf] at hpre
  · rw [hd] at hpre
    simp [List.isPrefixOf] at hpre
    exact ⟨t, by rw [hpre]⟩

theorem findCharFrom_lt (ch : Char) (s : List Char) (start p : Nat)
    (h : findCharFrom ch s start = some p) : p < s.length := by
  obtain ⟨t, ht⟩ := findCharFrom_drop ch s start p h
  have : (s.drop p).length = s.length - p := List.length_drop p s
  rw [ht] at this
  simp at this
  omega

theorem rfindBefore_lt (ch : Char) (s : List Char) (stop i : Nat)
    (h : rfindBefore ch s stop = some i) : i < s.length := by
  rw [rfindBefore] at h
  rcases hf : findIdx [ch] ((s.take stop).reverse) with - | k
  · rw [hf] at h
    exact Option.noConfusion h
  · rw [hf] at h
    have hlen := findIdx_add_len_le _ _ _ hf
    rw [List.length_reverse] at hlen
    have htake : (s.take stop).length ≤ s.length := by
      rw [List.length_take]
      omega
    simp at hlen
    have hi : i = (s.take stop).length - 1 - k := by simpa using h.symm
    omega

theorem pyIdx_ofNat (n i : Nat) (h : i ≤ n) : pyIdx n (i : Int) = i := by
  unfold pyIdx
  rw [if_neg (by omega)]
  rw [Int.toNat_ofNat]
  omega

theorem removeTitle_eq_specLstrip (mid : List Char) :
    removeTitle mid = specRemoveTitleLstrip mid := by
  unfold removeTitle specRemoveTitleLstrip
  rcases h1 : findIdx beginTitle mid with - | ts
  · rfl
  · rcases h2 : findIdx endTitle mid with - | te
    · rfl
    · simp only []
      rcases h3 : findCharFrom '\n' mid (te + endTitle.length) with - | p
      · rfl
      · simp only []
        congr 1
        obtain ⟨t, ht⟩ := findCharFrom_drop '\n' mid (te + endTitle.length) p h3
        have hstep : mid.drop (p + 1) = t := by
          have hd : (mid.drop p).drop 1 = mid.drop (p + 1) := List.drop_drop 1 p mid
          rw [ht] at hd
          simpa using hd.symm
        rw [ht, hstep]
        rw [lstripPy, List.dropWhile_cons]
        rw [if_pos (by decide)]
        rfl

/-- C4 (amended): for every converter output in which both markers are
present, a line follows the begin marker, and a line precedes the end
marker, `betweenMarkers` returns the content strictly between the line
following the begin marker and the line preceding the end marker,
trimmed, with the title sub-block removed including its trailing
newline and with any further leading whitespace after the removed block
stripped as well. -/
theorem c4_amended_extraction (content : List Char) (bs es nb ne : Nat)
    (hbs : findIdx beginMarker content = some bs)
    (hes : findIdx endMarker content = some es)
    (hnb : findCharFrom '\n' content bs = some nb)
    (hne : rfindBefore '\n' content es = some ne) :
    betweenMarkers content = specCleanContentAmended content
    ∧ ((∀ (k : MKey) (i : Nat), i < content.length →
          matchAt (labelPat k) (content.drop i) = none) →
        extract_metadata content = emptyMeta) := by
  refine ⟨?_, ?_⟩
  case refine_2 =>
    intro hnone
    have hk : ∀ k : MKey, reSearchCapture (labelPat k) content = none :=
      fun k => reSearchCapture_eq_none _ _ (fun i hi => hnone k i hi)
    unfold extract_metadata emptyMeta
    rw [hk .description, hk .tags, hk .servings, hk .prep_time, hk .cook_time,
      hk .author, hk .source]
  simp only [betweenMarkers, specCleanContentAmended, hbs, hes, hnb, hne]
  have h1 : pySlice content ((nb : Int) + 1) (ne : Int) = (content.take ne).drop (nb + 1) := by
    unfold pySlice
    have hlt1 : nb + 1 ≤ content.length := findCharFrom_lt '\n' content bs nb hnb
    have hlt2 : ne ≤ content.length := le_of_lt (rfindBefore_lt '\n' content es ne hne)
    have hcast : ((nb : Int) + 1) = ((nb + 1 : Nat) : Int) := by push_cast; ring
    rw [hcast, pyIdx_ofNat _ _ hlt1, pyIdx_ofNat _ _ hlt2]
  rw [h1, removeTitle_eq_specLstrip]

theorem c4_amended_witness :
    betweenMarkers exContent = specCleanContentAmended exContent :=
  (c4_amended_extraction exContent 0 57 22 56 (by decide) (by decide) (by decide) (by decide)).1

/-- Python string comparison `a <= b` (lexicographic by code point). -/
def lexLe : List Char → List Char → Bool
  | [], _ => true
  | _ :: _, [] => false
  | a :: as, b :: bs => if a = b then lexLe as bs else decide (a < b)

theorem lexLe_total (a b : List Char) : lexLe a b = true ∨ lexLe b a = true := by
  induction a generalizing b with
  | nil => left; rfl
  | cons x xs ih =>
      cases b with
      | nil => right; rfl
      | cons y ys =>
          by_cases hxy : x = y
          · subst hxy
            rcases ih ys with h | h
            · left; simpa [lexLe] using h
            · right; simpa [lexLe] using h
          · rcases lt_trichotomy x y with h | h | h
            · left; simp [lexLe, hxy, h]
            · exact absurd h hxy
            · right; simp [lexLe, Ne.symm hxy, h]

theorem lexLe_trans (a b c : List Char) (hab : lexLe a b = true) (hbc : lexLe b c = true) :
    lexLe a c = true := by
  induction a generalizing b c with
  | nil => rfl
  | cons x xs ih =>
      cases b with
      | nil => simp [lexLe] at hab
      | cons y ys =>
          cases c with
          | nil => simp [lexLe] at hbc
          | cons z zs =>
              by_cases hxy : x = y
              · subst hxy
                by_cases hyz : x = z
                · subst hyz
                  simp only [lexLe, if_pos rfl] at hab hbc ⊢
                  exact ih ys zs hab hbc
                · simp only [lexLe, if_pos rfl] at hab
                  simp only [lexLe, if_neg hyz] at hbc ⊢
                  exact hbc
              · by_cases hyz : y = z
                · subst hyz
                  simp only [lexLe, if_neg hxy] at hab ⊢
                  exact hab
                · simp only [lexLe, if_neg hxy] at hab
                  simp only [lexLe, if_neg hyz] at hbc
                  have hxz : x < z := lt_trans (of_decide_eq_true hab) (of_decide_eq_true hbc)
                  simp only [lexLe, if_neg (ne_of_lt hxz)]
                  exact decide_eq_true hxz

theorem lexLe_antisymm (a b : List Char) (hab : lexLe a b = true) (hba : lexLe b a = true) :
    a = b := by
  induction a generalizing b with
  | nil =>
      cases b with
      | nil => rfl
      | cons y ys => simp [lexLe] at hba
  | cons x xs ih =>
      cases b with
      | nil => simp [lexLe] at hab
      | cons y ys =>
          by_cases hxy : x = y
          · subst hxy
            simp only [lexLe, if_pos rfl] at hab hba
            rw [ih ys hab hba]
          · simp only [lexLe, if_neg hxy] at hab
            simp only [lexLe, if_neg (Ne.symm hxy)] at hba
            exact absurd (lt_trans (of_decide_eq_true hab) (of_decide_eq_true hba))
              (lt_irrefl x)

/-- One insertion step of the sort modelling Python `sorted`. -/
def insertLe (a : List Char) : List (List Char) → List (List Char)
  | [] => [a]
  | b :: rest => if lexLe a b then a :: b :: rest else b :: insertLe a rest

/-- Model of Python `sorted` on lists of strings: the (unique) ordering
of the list by `lexLe`. -/
def sortL : List (List Char) → List (List Char)
  | [] => []
  | a :: rest => insertLe a (sortL rest)

theorem insertLe_perm (a : List Char) (l : List (List Char)) :
    (insertLe a l).Perm (a :: l) := by
  induction l with
  | nil => exact List.Perm.refl _
  | cons b rest ih =>
      rw [insertLe]
      by_cases h : lexLe a b = true
      · rw [if_pos h]
      · rw [if_neg h]
        exact (List.Perm.cons b ih).trans (List.Perm.swap a b rest)

theorem sortL_perm (l : List (List Char)) : (sortL l).Perm l := by
  induction l with
  | nil => exact List.Perm.refl _
  | cons a rest ih =>
      rw [sortL]
      exact (insertLe_perm a (sortL rest)).trans (List.Perm.cons a ih)

theorem insertLe_sorted (a : List Char) (l : List (List Char))
    (h : l.Pairwise (fun u v => lexLe u v = true)) :
    (insertLe a l).Pairwise (fun u v => lexLe u v = true) := by
  induction l with
  | nil => simp [insertLe]
  | cons b rest ih =>
      rw [insertLe]
      rw [List.pairwise_cons] at h
      by_cases hab : lexLe a b = true
      · rw [if_pos hab]
        rw [List.pairwise_cons]
        refine ⟨?_, List.pairwise_cons.mpr h⟩
        intro x hx
        rw [List.mem_cons] at hx
        rcases hx with rfl | hx
        · exact hab
        · exact lexLe_trans a b x hab (h.1 x hx)
      · rw [if_neg hab]
        rw [List.pairwise_cons]
        refine ⟨?_, ih h.2⟩
        intro x hx
        have hmem := (insertLe_perm a rest).mem_iff.mp hx
        rw [List.mem_cons] at hmem
        rcases hmem with he | hmem
        · rw [he]
          rcases lexLe_total a b with h1 | h1
          · exact absurd h1 hab
          · exact h1
        · exact h.1 x hmem

theorem sortL_sorted (l : List (List Char)) :
    (sortL l).Pairwise (fun u v => lexLe u v = true) := by
  induction l with
  | nil => simp [sortL]
  | cons a rest ih =>
      rw [sortL]
      exact insertLe_sorted a (sortL rest) ih

instance lexLeAntisymm : IsAntisymm (List Char) (fun u v => lexLe u v = true) :=
  ⟨lexLe_antisymm⟩

theorem sortL_eq_of_perm {l1 l2 : List (List Char)} (h : l1.Perm l2) :
    sortL l1 = sortL l2 :=
  List.eq_of_perm_of_sorted
    ((sortL_perm l1).trans (h.trans (sortL_perm l2).symm))
    (sortL_sorted l1) (sortL_sorted l2)

/-- Fuel-driven worker for Python `str.split(sep)` with non-empty `sep`
(the fuel, at least the string length, bounds the recursion). -/
def pySplitSepAux (sep : List Char) : Nat → List Char → List (List Char)
  | 0, s => [s]
  | fuel + 1, s =>
    match findIdx sep s with
    | none => [s]
    | some i => s.take i :: pySplitSepAux sep fuel (s.drop (i + sep.length))

/-- Python `str.split(sep)`: split at each non-overlapping occurrence of
`sep`, left to right. -/
def pySplitSep (sep s : List Char) : List (List Char) :=
  if sep = [] then [s] else pySplitSepAux sep s.length s

/-- `Path.parts` of a relative POSIX path: the components between
slashes. -/
def pathParts (p : List Char) : List (List Char) :=
  pySplitSep ['/'] p

/-- `Path.stem` of a file name: the name without its final suffix. -/
def pathStem (name : List Char) : List Char :=
  match rfindBefore '.' name name.length with
  | some i => if 0 < i ∧ i + 1 < name.length then name.take i else name
  | none => name

/-- The file name (final component) of a relative path. -/
def fileName (p : List Char) : List Char :=
  (pathParts p).getLastD []

/-- The recipe's display name: the file stem with underscores and
hyphens replaced by spaces (`recipe_file.stem.replace('_', ' ').replace('-', ' ')`). -/
def displayName (p : List Char) : List Char :=
  pyReplaceChar '-' [' '] (pyReplaceChar '_' [' '] (pathStem (fileName p)))

/-- The chapter a scanned recipe file is assigned to
(`scan_recipes`, lines 126–133): the formatted top-level directory name
when the file is nested, the fixed default chapter otherwise. -/
def chapterOf (p : List Char) : List Char :=
  if 1 < (pathParts p).length then format_chapter_name ((pathParts p).headI)
  else "Main Dishes".data

/-- `self.chapters[chapter].append(cook_file)` with dict insertion-order
semantics: append the file to its chapter's list, creating the chapter
at the end of the mapping when new. -/
def addToChapter (m : List (List Char × List (List Char))) (c : List Char) (p : List Char) :
    List (List Char × List (List Char)) :=
  match m with
  | [] => [(c, [p])]
  | (k, v) :: rest => if k = c then (k, v ++ [p]) :: rest else (k, v) :: addToChapter rest c p

/-- `CookbookGenerator.scan_recipes`, as a function of the discovered
file list (the result of `rglob("*.cook")` in discovery order, as paths
relative to the recipe directory). -/
def scan_recipes (files : List (List Char)) : List (List Char × List (List Char)) :=
  files.foldl (fun m p => addToChapter m (chapterOf p) p) []

def lookupChapter (c : List Char) : List (List Char × List (List Char)) → List (List Char)
  | [] => []
  | (k, v) :: rest => if k = c then v else lookupChapter c rest

def chapterKeys (m : List (List Char × List (List Char))) : List (List Char) :=
  m.map Prod.fst

/-- The run configuration of `CookbookGenerator.__init__`. -/
structure Config where
  title : List Char
  author : Option (List Char)
  include_index : Bool
  include_toc : Bool

/-- `CookbookGenerator.generate_header`. -/
def generate_header (cfg : Config) : List Char :=
  ("\\documentclass[11pt,a4paper,twoside]\x7bbook\x7d\n" ++
   "\\usepackage\x7bfontspec\x7d\n" ++
   "\\usepackage\x7bpolyglossia\x7d\n" ++
   "\\setdefaultlanguage\x7brussian\x7d\n" ++
   "\\setotherlanguage\x7benglish\x7d\n" ++
   "\\setmainfont\x7bDejaVu Serif\x7d\n" ++
   "\\usepackage\x7btextcomp\x7d\n" ++
   "\\usepackage\x7bmicrotype\x7d\n" ++
   "\\usepackage\x7benumitem\x7d\n" ++
   "\\usepackage\x7bmulticol\x7d\n" ++
   "\\usepackage[space]\x7bgrffile\x7d\n" ++
   "\\usepackage\x7bgraphicx\x7d\n" ++
   "\\usepackage\x7bxcolor\x7d\n" ++
   "\\usepackage\x7btitlesec\x7d\n" ++
   "\\usepackage\x7bgeometry\x7d\n" ++
   "\\usepackage\x7bhyperref\x7d").data
  ++ (if cfg.include_index then
        ("\n\\usepackage\x7bmakeidx\x7d\n\\usepackage\x7bimakeidx\x7d").data
      else [])
  ++ ("\n\\usepackage\x7bfancyhdr\x7d\n\\usepackage\x7btocloft\x7d\n\n" ++
      "% Page geometry\n" ++
      "\\geometry\x7bleft=2.5cm,right=2.5cm,top=2.5cm,bottom=3cm,bindingoffset=0.5cm\x7d\n\n" ++
      "% Color definitions\n" ++
      "\\definecolor\x7bingredientcolor\x7d\x7bRGB\x7d\x7b204, 85, 0\x7d\n" ++
      "\\definecolor\x7bcookwarecolor\x7d\x7bRGB\x7d\x7b34, 139, 34\x7d\n" ++
      "\\definecolor\x7btimercolor\x7d\x7bRGB\x7d\x7b220, 20, 60\x7d\n\n" ++
      "% Custom commands\n" ++
      "\\newcommand\x7b\\ingredient\x7d[1]\x7b\\textcolor\x7bingredientcolor\x7d\x7b\\textbf\x7b#1\x7d\x7d\x7d\n" ++
      "\\newcommand\x7b\\cookware\x7d[1]\x7b\\textcolor\x7bcookwarecolor\x7d\x7b\\textbf\x7b#1\x7d\x7d\x7d\n" ++
      "\\newcommand\x7b\\timer\x7d[1]\x7b\\textcolor\x7btimercolor\x7d\x7b\\textbf\x7b#1\x7d\x7d\x7d\n").data
  ++ (if cfg.include_index then
        ("\n% Index setup\n\\makeindex[columns=2, title=Указатель рецептов, intoc]").data
      else [])
  ++ ("\n\n% Page style\n\\pagestyle\x7bfancy\x7d\n\\fancyhf\x7b\x7d\n" ++
      "\\fancyhead[LE,RO]\x7b\\thepage\x7d\n\\fancyhead[RE]\x7b\\textit\x7b").data
  ++ escape_latex cfg.title
  ++ ("\x7d\x7d\n\\fancyhead[LO]\x7b\\leftmark\x7d\n" ++
      "\\renewcommand\x7b\\headrulewidth\x7d\x7b0.4pt\x7d\n\n" ++
      "% Section formatting - smaller for TOC entries\n" ++
      "\\titleformat\x7b\\section\x7d[block]\n" ++
      "  \x7b\\normalfont\\large\\bfseries\x7d\n  \x7b\x7d\n  \x7b0pt\x7d\n  \x7b\x7d\n\n" ++
      "% Suppress section numbers\n\\setcounter\x7bsecnumdepth\x7d\x7b0\x7d\n\n" ++
      "\\begin\x7bdocument\x7d\n\n" ++
      "% Title page\n\\begin\x7btitlepage\x7d\n\\centering\n\\vspace*\x7b5cm\x7d\n" ++
      "\x7b\\Huge\\bfseries ").data
  ++ escape_latex cfg.title
  ++ ("\x7d\\par").data
  ++ (match cfg.author with
      | some a =>
          ("\n\\vspace\x7b2cm\x7d\n\x7b\\Large ").data ++ escape_latex a ++ ("\x7d\\par").data
      | none => [])
  ++ ("\n\\vfill\n\\textit\x7bCreated with CookCLI\x7d\\par\n\\vspace\x7b1cm\x7d\n" ++
      "\x7b\\large \\today\x7d\n\\end\x7btitlepage\x7d\n").data
  ++ (if cfg.include_toc then
        ("\n% Table of contents\n\\tableofcontents\n\\clearpage\n").data
      else [])

/-- `CookbookGenerator.generate_footer`. -/
def generate_footer (cfg : Config) : List Char :=
  (if cfg.include_index then ("\n% Index\n\\printindex\n").data else [])
  ++ ("\n\\end\x7bdocument\x7d\n").data

/-- One secondary (tag-nested) index entry for a recipe. -/
def mkTagEntry (tag name : List Char) : List Char :=
  ("\\index\x7b").data ++ escape_latex tag ++ ("!").data ++ escape_latex name ++ ("\x7d\n").data

/-- The index-entry writes of one recipe: primary entry, one entry per
tag (the `tags` value split on `', '`), and an author entry. -/
def indexWrites (cfg : Config) (name : List Char) (m : Metadata) : List (List Char) :=
  if cfg.include_index then
    (("\\index\x7b").data ++ escape_latex name ++ ("\x7d\n").data)
    :: ((match m.tags with
         | some t => (pySplitSep (", ".data) t).map (fun tag => mkTagEntry tag name)
         | none => [])
        ++ (match m.author with
            | some a =>
                [("\\index\x7bAuthors!").data ++ escape_latex a ++ ("!").data
                  ++ escape_latex name ++ ("\x7d\n").data]
            | none => []))
  else []

/-- The `metadata.items()` view, in the dict's insertion order (the
fixed pattern order, restricted to the present keys). -/
def metaPairs (m : Metadata) : List (List Char × List Char) :=
  (match m.description with | some v => [(("description").data, v)] | none => [])
  ++ (match m.tags with | some v => [(("tags").data, v)] | none => [])
  ++ (match m.servings with | some v => [(("servings").data, v)] | none => [])
  ++ (match m.prep_time with | some v => [(("prep_time").data, v)] | none => [])
  ++ (match m.cook_time with | some v => [(("cook_time").data, v)] | none => [])
  ++ (match m.author with | some v => [(("author").data, v)] | none => [])
  ++ (match m.source with | some v => [(("source").data, v)] | none => [])

/-- The metadata-as-comments writes of one recipe (emitted only when the
metadata dict is non-empty). -/
def metaCommentWrites (name : List Char) (m : Metadata) : List (List Char) :=
  if metaPairs m = [] then []
  else (("% Recipe: ").data ++ name ++ ("\n").data)
    :: ((metaPairs m).map (fun kv => ("% ").data ++ kv.1 ++ (": ").data ++ kv.2 ++ ("\n").data)
        ++ [("\n").data])

/-- The TOC entry and centered title writes of one recipe. -/
def titleBlockWrites (name : List Char) : List (List Char) :=
  [("\\phantomsection\n").data,
   ("\\addcontentsline\x7btoc\x7d\x7bsection\x7d\x7b").data ++ escape_latex name ++ ("\x7d\n").data,
   ("\\begin\x7bcenter\x7d\n").data,
   ("\x7b\\Huge\\bfseries ").data ++ escape_latex name ++ ("\x7d\n").data,
   ("\\end\x7bcenter\x7d\n").data,
   ("\\vspace\x7b1cm\x7d\n\n").data]

/-- The image-inclusion writes (when `find_recipe_image` found a sibling
image; the argument is its absolute path). -/
def imageWrites (img : Option (List Char)) : List (List Char) :=
  match img with
  | some ap =>
      [("\\begin\x7bcenter\x7d\n").data,
       ("\\includegraphics[width=0.8\\textwidth]\x7b").data ++ ap ++ ("\x7d\n").data,
       ("\\end\x7bcenter\x7d\n").data,
       ("\\vspace\x7b0.5cm\x7d\n\n").data]
  | none => []

/-- The content (or placeholder) writes: Python's `if content:` treats
both `None` and the empty string as failure. -/
def contentWrites (content : Option (List Char)) : List (List Char) :=
  match content with
  | some c =>
      if c = [] then
        [("\\textit\x7bRecipe content could not be processed.\x7d\n\n\\clearpage\n\n").data]
      else [c, ("\n\n\\clearpage\n\n").data]
  | none => [("\\textit\x7bRecipe content could not be processed.\x7d\n\n\\clearpage\n\n").data]

/-- All writes emitted for one recipe inside the chapter loop of
`generate`.  `conv` is the per-recipe result of `get_recipe_latex`, and
`img` the per-recipe result of `find_recipe_image` (the filesystem is an
oracle input). -/
def recipeWrites (cfg : Config) (conv : List Char → Option (List Char) × Metadata)
    (img : List Char → Option (List Char)) (p : List Char) : List (List Char) :=
  indexWrites cfg (displayName p) (conv p).2
  ++ metaCommentWrites (displayName p) (conv p).2
  ++ titleBlockWrites (displayName p)
  ++ imageWrites (img p)
  ++ contentWrites (conv p).1

/-- All writes emitted for one chapter: heading, then the chapter's
recipes in sorted order. -/
def chapterWrites (cfg : Config) (conv : List Char → Option (List Char) × Metadata)
    (img : List Char → Option (List Char)) (chname : List Char)
    (recipes : List (List Char)) : List (List Char) :=
  (("\n\\chapter\x7b").data ++ escape_latex chname ++ ("\x7d\n\n").data)
  :: (sortL recipes).flatMap (recipeWrites cfg conv img)

/-- The full sequence of `f.write` calls of a successful `generate` run:
header, chapters in sorted key order, footer. -/
def generateWrites (cfg : Config) (conv : List Char → Option (List Char) × Metadata)
    (img : List Char → Option (List Char)) (files : List (List Char)) : List (List Char) :=
  generate_header cfg
  :: ((sortL (chapterKeys (scan_recipes files))).flatMap
        (fun ch => chapterWrites cfg conv img ch (lookupChapter ch (scan_recipes files)))
      ++ [generate_footer cfg])

/-- `CookbookGenerator.generate`: `false` (and no output file) when the
scan found nothing, otherwise `true` together with the writes performed
on the output file. -/
def generate (cfg : Config) (conv : List Char → Option (List Char) × Metadata)
    (img : List Char → Option (List Char)) (files : List (List Char)) :
    Bool × Option (List (List Char)) :=
  if scan_recipes files = [] then (false, none)
  else (true, some (generateWrites cfg conv img files))

theorem addToChapter_ne_nil (m : List (List Char × List (List Char))) (c p : List Char) :
    addToChapter m c p ≠ [] := by
  cases m with
  | nil => simp [addToChapter]
  | cons kv rest =>
      obtain ⟨k, v⟩ := kv
      rw [addToChapter]
      by_cases h : k = c <;> simp [h]

theorem scan_foldl_ne_nil (files : List (List Char)) :
    ∀ m, m ≠ [] → files.foldl (fun m p => addToChapter m (chapterOf p) p) m ≠ [] := by
  induction files with
  | nil => intro m h; simpa using h
  | cons p fs ih =>
      intro m h
      rw [List.foldl_cons]
      exact ih _ (addToChapter_ne_nil m _ p)

theorem scan_recipes_eq_nil_iff (files : List (List Char)) :
    scan_recipes files = [] ↔ files = [] := by
  constructor
  · intro h
    cases files with
    | nil => rfl
    | cons p fs =>
        exfalso
        rw [scan_recipes, List.foldl_cons] at h
        exact scan_foldl_ne_nil fs _ (addToChapter_ne_nil [] _ p) h
  · rintro rfl
    rfl

theorem lookup_addToChapter (c2 c p : List Char) (m : List (List Char × List (List Char))) :
    lookupChapter c2 (addToChapter m c p)
      = lookupChapter c2 m ++ (if c = c2 then [p] else []) := by
  induction m with
  | nil =>
      by_cases h : c = c2 <;> simp [addToChapter, lookupChapter, h]
  | cons kv rest ih =>
      obtain ⟨k, v⟩ := kv
      rw [addToChapter]
      by_cases hk : k = c
      · subst hk
        rw [if_pos rfl]
        by_cases h2 : k = c2
        · simp [lookupChapter, h2]
        · simp [lookupChapter, h2]
      · rw [if_neg hk]
        by_cases h2 : k = c2
        · have hne : ¬(c = c2) := fun hcc => hk (by rw [h2, ← hcc])
          simp [lookupChapter, h2, hne]
        · simp [lookupChapter, h2, ih]

theorem lookup_scan_foldl (files : List (List Char)) :
    ∀ (m : List (List Char × List (List Char))) (c : List Char),
      lookupChapter c (files.foldl (fun m p => addToChapter m (chapterOf p) p) m)
        = lookupChapter c m ++ files.filter (fun p => chapterOf p == c) := by
  induction files with
  | nil => intro m c; simp
  | cons p fs ih =>
      intro m c
      rw [List.foldl_cons, ih, lookup_addToChapter, List.filter_cons]
      by_cases h : chapterOf p = c
      · rw [if_pos h]
        rw [if_pos (by simp [h])]
        simp [List.append_assoc]
      · rw [if_neg h]
        rw [if_neg (by simp [h])]
        simp

theorem lookup_scan (files : List (List Char)) (c : List Char) :
    lookupChapter c (scan_recipes files) = files.filter (fun p => chapterOf p == c) := by
  rw [scan_recipes, lookup_scan_foldl]
  rfl

theorem keys_addToChapter (m : List (List Char × List (List Char))) (c p : List Char) :
    chapterKeys (addToChapter m c p)
      = if c ∈ chapterKeys m then chapterKeys m else chapterKeys m ++ [c] := by
  induction m with
  | nil => simp [addToChapter, chapterKeys]
  | cons kv rest ih =>
      obtain ⟨k, v⟩ := kv
      rw [addToChapter]
      by_cases hk : k = c
      · subst hk
        rw [if_pos rfl]
        rw [if_pos (show k ∈ chapterKeys ((k, v) :: rest) by simp [chapterKeys])]
        simp [chapterKeys]
      · rw [if_neg hk]
        have hiff : (c ∈ chapterKeys ((k, v) :: rest)) ↔ (c ∈ chapterKeys rest) := by
          simp [chapterKeys, Ne.symm hk]
        have hcons : chapterKeys ((k, v) :: addToChapter rest c p)
            = k :: chapterKeys (addToChapter rest c p) := by simp [chapterKeys]
        by_cases h : c ∈ chapterKeys rest
        · rw [if_pos (hiff.mpr h), hcons, ih, if_pos h]
          simp [chapterKeys]
        · rw [if_neg (fun hm => h (hiff.mp hm)), hcons, ih, if_neg h]
          simp [chapterKeys]

theorem keys_foldl_nodup (files : List (List Char)) :
    ∀ m, (chapterKeys m).Nodup →
      (chapterKeys (files.foldl (fun m p => addToChapter m (chapterOf p) p) m)).Nodup := by
  induction files with
  | nil => intro m h; simpa using h
  | cons p fs ih =>
      intro m h
      rw [List.foldl_cons]
      apply ih
      rw [keys_addToChapter]
      by_cases hm : chapterOf p ∈ chapterKeys m
      · rw [if_pos hm]; exact h
      · rw [if_neg hm]
        rw [List.nodup_append]
        refine ⟨h, List.nodup_singleton _, ?_⟩
        intro a ha hb
        rw [List.mem_singleton] at hb
        subst hb
        exact hm ha

theorem keys_scan_nodup (files : List (List Char)) :
    (chapterKeys (scan_recipes files)).Nodup :=
  keys_foldl_nodup files [] (by simp [chapterKeys])

theorem mem_keys_addToChapter (m : List (List Char × List (List Char))) (c2 c p : List Char) :
    c2 ∈ chapterKeys (addToChapter m c p) ↔ c2 ∈ chapterKeys m ∨ c2 = c := by
  rw [keys_addToChapter]
  by_cases h : c ∈ chapterKeys m
  · rw [if_pos h]
    constructor
    · exact Or.inl
    · rintro (h2 | rfl)
      · exact h2
      · exact h
  · rw [if_neg h]
    simp

theorem mem_keys_foldl (files : List (List Char)) :
    ∀ m c, c ∈ chapterKeys (files.foldl (fun m p => addToChapter m (chapterOf p) p) m)
      ↔ c ∈ chapterKeys m ∨ ∃ p ∈ files, chapterOf p = c := by
  induction files with
  | nil => intro m c; simp
  | cons p fs ih =>
      intro m c
      rw [List.foldl_cons, ih, mem_keys_addToChapter]
      constructor
      · rintro ((h | h) | ⟨q, hq, hc⟩)
        · exact Or.inl h
        · exact Or.inr ⟨p, by simp, h.symm⟩
        · exact Or.inr ⟨q, by simp [hq], hc⟩
      · rintro (h | ⟨q, hq, hc⟩)
        · exact Or.inl (Or.inl h)
        · rw [List.mem_cons] at hq
          rcases hq with rfl | hq
          · exact Or.inl (Or.inr hc.symm)
          · exact Or.inr ⟨q, hq, hc⟩

theorem mem_keys_scan (files : List (List Char)) (c : List Char) :
    c ∈ chapterKeys (scan_recipes files) ↔ ∃ p ∈ files, chapterOf p = c := by
  rw [scan_recipes, mem_keys_foldl]
  simp [chapterKeys]

/-- C1: `generate` returns `false` exactly when the scan discovers zero
recipe files, and then never opens or writes the output file; with any
recipe present it returns `true` and writes the full document, whatever
the per-recipe extraction results are. -/
theorem c1_generate_false_iff_no_recipes (cfg : Config)
    (conv : List Char → Option (List Char) × Metadata)
    (img : List Char → Option (List Char)) (files : List (List Char)) :
    ((generate cfg conv img files).1 = false ↔ files = [])
    ∧ (files = [] → (generate cfg conv img files).2 = none)
    ∧ (files ≠ [] → (generate cfg conv img files).1 = true
        ∧ (generate cfg conv img files).2 = some (generateWrites cfg conv img files)) := by
  refine ⟨?_, ?_, ?_⟩
  · constructor
    · intro h
      by_cases hs : scan_recipes files = []
      · exact (scan_recipes_eq_nil_iff files).mp hs
      · rw [generate, if_neg hs] at h
        simp at h
    · rintro rfl
      rfl
  · rintro rfl
    rfl
  · intro hne
    have hs : scan_recipes files ≠ [] := fun h => hne ((scan_recipes_eq_nil_iff files).mp h)
    rw [generate, if_neg hs]
    exact ⟨rfl, rfl⟩

def cfgEx : Config := ⟨"T".data, none, true, true⟩

def convFail : List Char → Option (List Char) × Metadata := fun _ => (none, emptyMeta)

def imgNone : List Char → Option (List Char) := fun _ => none

theorem c1_witness :
    (generate cfgEx convFail imgNone []).1 = false
    ∧ (generate cfgEx convFail imgNone [("a.cook".data)]).1 = true := by
  constructor
  · exact (c1_generate_false_iff_no_recipes cfgEx convFail imgNone []).1.mpr rfl
  · exact ((c1_generate_false_iff_no_recipes cfgEx convFail imgNone
      [("a.cook".data)]).2.2 (by simp)).1

/-- C7: every scanned recipe file lands in the chapter given by its
top-level subdirectory name (formatted: separators to spaces, words
capitalized) when nested, and in the fixed default chapter when at top
level; in particular `desserts/cake.cook` (relative to the scanned root)
is chaptered "Desserts" and a top-level `soup.cook` falls in the default
chapter. -/
theorem c7_chapter_for_each_file (files : List (List Char)) (p : List Char) (hp : p ∈ files) :
    (1 < (pathParts p).length →
      p ∈ lookupChapter (format_chapter_name ((pathParts p).headI)) (scan_recipes files))
    ∧ ((pathParts p).length ≤ 1 →
        p ∈ lookupChapter ("Main Dishes".data) (scan_recipes files))
    ∧ chapterOf ("desserts/cake.cook".data) = ("Desserts".data)
    ∧ chapterOf ("soup.cook".data) = ("Main Dishes".data) := by
  have hmem : ∀ c, chapterOf p = c → p ∈ lookupChapter c (scan_recipes files) := by
    intro c hc
    rw [lookup_scan, List.mem_filter]
    exact ⟨hp, by simp [hc]⟩
  refine ⟨?_, ?_, ?_, ?_⟩
  · intro hlen
    exact hmem _ (by rw [chapterOf, if_pos hlen])
  · intro hlen
    exact hmem _ (by rw [chapterOf, if_neg (by omega)])
  · rw [chapterOf, if_pos (by decide)]
    rw [show (pathParts ("desserts/cake.cook".data)).headI = ("desserts".data) from by decide]
    unfold format_chapter_name
    rw [show pyReplaceChar '-' [' '] (pyReplaceChar '_' [' '] ("desserts".data))
      = ("desserts".data) from by decide]
    rw [splitWs_good_single ("desserts".data) ⟨by decide, by decide⟩]
    decide
  · rw [chapterOf, if_neg (by decide)]

theorem c7_witness :
    ("desserts/cake.cook".data) ∈ lookupChapter ("Desserts".data)
      (scan_recipes [("desserts/cake.cook".data)]) := by
  have hall := c7_chapter_for_each_file [("desserts/cake.cook".data)]
    ("desserts/cake.cook".data) (by simp)
  have h1 := hall.1 (by decide)
  have h3 := hall.2.2.1
  rw [chapterOf, if_pos (by decide)] at h3
  rw [h3] at h1
  exact h1

/-- C8: the assembled document is independent of the discovery order —
any permutation of the discovered file list yields the very same
`generate` result — because chapters are emitted in ascending
lexicographic order of chapter name and, within a chapter, recipes in
ascending lexicographic order of file path. -/
theorem c8_deterministic_sorted_output (cfg : Config)
    (conv : List Char → Option (List Char) × Metadata)
    (img : List Char → Option (List Char)) (files1 files2 : List (List Char))
    (hperm : files1.Perm files2) :
    generate cfg conv img files1 = generate cfg conv img files2
    ∧ (sortL (chapterKeys (scan_recipes files1))).Pairwise (fun u v => lexLe u v = true)
    ∧ ∀ c, (sortL (lookupChapter c (scan_recipes files1))).Pairwise
        (fun u v => lexLe u v = true) := by
  have hlk : ∀ c, sortL (lookupChapter c (scan_recipes files1))
      = sortL (lookupChapter c (scan_recipes files2)) := by
    intro c
    rw [lookup_scan, lookup_scan]
    exact sortL_eq_of_perm (hperm.filter _)
  have hkeys : sortL (chapterKeys (scan_recipes files1))
      = sortL (chapterKeys (scan_recipes files2)) := by
    apply sortL_eq_of_perm
    rw [List.perm_ext_iff_of_nodup (keys_scan_nodup files1) (keys_scan_nodup files2)]
    intro c
    rw [mem_keys_scan, mem_keys_scan]
    constructor
    · rintro ⟨p, hp, hc⟩
      exact ⟨p, hperm.mem_iff.mp hp, hc⟩
    · rintro ⟨p, hp, hc⟩
      exact ⟨p, hperm.mem_iff.mpr hp, hc⟩
  refine ⟨?_, sortL_sorted _, fun c => sortL_sorted _⟩
  have hnil : (scan_recipes files1 = []) ↔ (scan_recipes files2 = []) := by
    rw [scan_recipes_eq_nil_iff, scan_recipes_eq_nil_iff]
    constructor
    · rintro rfl
      exact hperm.symm.eq_nil
    · rintro rfl
      exact hperm.eq_nil
  by_cases h1 : scan_recipes files1 = []
  · rw [generate, generate, if_pos h1, if_pos (hnil.mp h1)]
  · rw [generate, generate, if_neg h1, if_neg (fun h2 => h1 (hnil.mpr h2))]
    have hfun : (fun ch => chapterWrites cfg conv img ch (lookupChapter ch (scan_recipes files1)))
        = (fun ch => chapterWrites cfg conv img ch (lookupChapter ch (scan_recipes files2))) := by
      funext ch
      unfold chapterWrites
      rw [hlk ch]
    rw [show generateWrites cfg conv img files1
        = generate_header cfg
          :: ((sortL (chapterKeys (scan_recipes files1))).flatMap
                (fun ch => chapterWrites cfg conv img ch (lookupChapter ch (scan_recipes files1)))
              ++ [generate_footer cfg]) from rfl]
    rw [show generateWrites cfg conv img files2
        = generate_header cfg
          :: ((sortL (chapterKeys (scan_recipes files2))).flatMap
                (fun ch => chapterWrites cfg conv img ch (lookupChapter ch (scan_recipes files2)))
              ++ [generate_footer cfg]) from rfl]
    rw [hkeys, hfun]

theorem c8_witness :
    generate cfgEx convFail imgNone [("b.cook".data), ("a.cook".data)]
      = generate cfgEx convFail imgNone [("a.cook".data), ("b.cook".data)] :=
  (c8_deterministic_sorted_output cfgEx convFail imgNone _ _ (by decide)).1

/-- Normal form of a secondary index entry: the escaped payload between
the fixed `\index` prefix and the `!name` suffix. -/
def tagEntryOf (nm e : List Char) : List Char :=
  ("\\index\x7b").data ++ (e ++ (("!").data ++ (escape_latex nm ++ ("\x7d\n").data)))

theorem mkTagEntry_eq (tag nm : List Char) :
    mkTagEntry tag nm = tagEntryOf nm (escape_latex tag) := by
  simp [mkTagEntry, tagEntryOf, List.append_assoc]

theorem tagEntryOf_inj (nm : List Char) : Function.Injective (tagEntryOf nm) := by
  intro e1 e2 h
  unfold tagEntryOf at h
  have h2 := List.append_cancel_left h
  exact List.append_cancel_right h2

theorem tagEntryOf_cons (nm e : List Char) :
    tagEntryOf nm e = '\\' :: 'i' :: 'n' :: 'd' :: 'e' :: 'x' :: '\x7b'
      :: (e ++ (("!").data ++ (escape_latex nm ++ ("\x7d\n").data))) := rfl

theorem ne_tagEntryOf_head {nm e : List Char} {c : Char} {tl : List Char} (hc : c ≠ '\\') :
    c :: tl ≠ tagEntryOf nm e := by
  rw [tagEntryOf_cons]
  intro h
  injection h with h1 h2
  exact hc h1

theorem ne_tagEntryOf_two {nm e : List Char} {c : Char} {tl : List Char} (hc : c ≠ 'i') :
    '\\' :: c :: tl ≠ tagEntryOf nm e := by
  rw [tagEntryOf_cons]
  intro h
  injection h with h1 h2
  injection h2 with h3 h4
  exact hc h3

theorem ne_tagEntryOf_four {nm e : List Char} {c : Char} {tl : List Char} (hc : c ≠ 'd') :
    '\\' :: 'i' :: 'n' :: c :: tl ≠ tagEntryOf nm e := by
  rw [tagEntryOf_cons]
  intro h
  injection h with h1 h2
  injection h2 with h3 h4
  injection h4 with h5 h6
  injection h6 with h7 h8
  exact hc h7

theorem primary_ne_tagEntryOf (nm e : List Char) :
    (("\\index\x7b").data ++ escape_latex nm ++ ("\x7d\n").data) ≠ tagEntryOf nm e := by
  intro h
  have hlen := congrArg List.length h
  have l7 : (("\\index\x7b").data : List Char).length = 7 := rfl
  have l2 : (("\x7d\n").data : List Char).length = 2 := rfl
  have l1 : (("!").data : List Char).length = 1 := rfl
  simp only [tagEntryOf, List.length_append, l7, l2, l1] at hlen
  omega

theorem author_entry_eq (nm a : List Char) :
    (("\\index\x7bAuthors!").data ++ escape_latex a ++ ("!").data
      ++ escape_latex nm ++ ("\x7d\n").data)
      = tagEntryOf nm (("Authors!").data ++ escape_latex a) := by
  rw [show (("\\index\x7bAuthors!").data : List Char)
    = ("\\index\x7b").data ++ ("Authors!").data from rfl]
  simp [tagEntryOf, List.append_assoc]

theorem count_metaComment_zero (nm2 : List Char) (m : Metadata) (nm e : List Char) :
    List.count (tagEntryOf nm e) (metaCommentWrites nm2 m) = 0 := by
  rw [List.count_eq_zero]
  intro hmem
  unfold metaCommentWrites at hmem
  by_cases h : metaPairs m = []
  · rw [if_pos h] at hmem
    simp at hmem
  · rw [if_neg h] at hmem
    rw [List.mem_cons] at hmem
    rcases hmem with he | hmem
    · exact absurd he.symm (ne_tagEntryOf_head (by decide))
    · rw [List.mem_append] at hmem
      rcases hmem with hmem | hmem
      · rw [List.mem_map] at hmem
        obtain ⟨kv, -, he⟩ := hmem
        exact absurd he (ne_tagEntryOf_head (by decide))
      · rw [List.mem_singleton] at hmem
        exact absurd hmem.symm (ne_tagEntryOf_head (by decide))

theorem count_titleBlock_zero (nm2 nm e : List Char) :
    List.count (tagEntryOf nm e) (titleBlockWrites nm2) = 0 := by
  rw [List.count_eq_zero]
  intro hmem
  unfold titleBlockWrites at hmem
  simp only [List.mem_cons, List.not_mem_nil, or_false] at hmem
  rcases hmem with he | he | he | he | he | he
  · exact absurd he.symm (ne_tagEntryOf_two (by decide))
  · exact absurd he.symm (ne_tagEntryOf_two (by decide))
  · exact absurd he.symm (ne_tagEntryOf_two (by decide))
  · exact absurd he.symm (ne_tagEntryOf_head (by decide))
  · exact absurd he.symm (ne_tagEntryOf_two (by decide))
  · exact absurd he.symm (ne_tagEntryOf_two (by decide))

theorem count_imageWrites_zero (imgres : Option (List Char)) (nm e : List Char) :
    List.count (tagEntryOf nm e) (imageWrites imgres) = 0 := by
  rw [List.count_eq_zero]
  intro hmem
  unfold imageWrites at hmem
  rcases imgres with - | ap
  · simp at hmem
  · simp only [List.mem_cons, List.not_mem_nil, or_false] at hmem
    rcases hmem with he | he | he | he
    · exact absurd he.symm (ne_tagEntryOf_two (by decide))
    · exact absurd he.symm (ne_tagEntryOf_four (by decide))
    · exact absurd he.symm (ne_tagEntryOf_two (by decide))
    · exact absurd he.symm (ne_tagEntryOf_two (by decide))

theorem count_contentWrites_zero (cOpt : Option (List Char)) (nm e : List Char)
    (hc : cOpt ≠ some (tagEntryOf nm e)) :
    List.count (tagEntryOf nm e) (contentWrites cOpt) = 0 := by
  rw [List.count_eq_zero]
  intro hmem
  rcases cOpt with - | c
  · simp only [contentWrites, List.mem_singleton] at hmem
    exact absurd hmem.symm (ne_tagEntryOf_two (by decide))
  · by_cases hn : c = []
    · simp only [contentWrites, if_pos hn, List.mem_singleton] at hmem
      exact absurd hmem.symm (ne_tagEntryOf_two (by decide))
    · simp only [contentWrites, if_neg hn, List.mem_cons, List.not_mem_nil, or_false] at hmem
      rcases hmem with he | he
      · exact hc (by rw [he])
      · exact absurd he.symm (ne_tagEntryOf_head (by decide))

theorem count_map_tagEntry (nm : List Char) (l : List (List Char)) (e : List Char) :
    List.count (tagEntryOf nm e) (List.map (tagEntryOf nm) l) = List.count e l := by
  induction l with
  | nil => rfl
  | cons x xs ih =>
      rw [List.map_cons, List.count_cons, List.count_cons, ih]
      congr 1
      by_cases hxe : x = e
      · subst hxe
        simp
      · have h1 : (x == e) = false := beq_eq_false_iff_ne.mpr hxe
        have h2 : (tagEntryOf nm x == tagEntryOf nm e) = false :=
          beq_eq_false_iff_ne.mpr (fun h => hxe (tagEntryOf_inj nm h))
        rw [h1, h2]

theorem count_one_of_mem_nodupL {l : List (List Char)} {a : List Char}
    (hn : l.Nodup) (ha : a ∈ l) : List.count a l = 1 := by
  induction l with
  | nil => simp at ha
  | cons x xs ih =>
      rw [List.count_cons]
      rw [List.nodup_cons] at hn
      rw [List.mem_cons] at ha
      rcases ha with rfl | ha
      · rw [List.count_eq_zero.mpr hn.1]
        simp
      · rw [ih hn.2 ha]
        rw [beq_eq_false_iff_ne.mpr (fun h => hn.1 (by rw [h]; exact ha))]
        simp

theorem count_indexWrites_one (cfg : Config) (nm : List Char) (m : Metadata)
    (t tag : List Char) (hidx : cfg.include_index = true) (htags : m.tags = some t)
    (hnodup : ((pySplitSep (", ".data) t).map escape_latex).Nodup)
    (hauthor : ∀ a, m.author = some a →
        escape_latex tag ≠ ("Authors!").data ++ escape_latex a)
    (htag : tag ∈ pySplitSep (", ".data) t) :
    List.count (tagEntryOf nm (escape_latex tag)) (indexWrites cfg nm m) = 1 := by
  unfold indexWrites
  rw [if_pos hidx, htags]
  have h1 : List.count (tagEntryOf nm (escape_latex tag))
      ((pySplitSep (", ".data) t).map (fun tg => mkTagEntry tg nm)) = 1 := by
    have hmapeq : (pySplitSep (", ".data) t).map (fun tg => mkTagEntry tg nm)
        = ((pySplitSep (", ".data) t).map escape_latex).map (tagEntryOf nm) := by
      rw [List.map_map]
      apply List.map_congr_left
      intro tg _
      exact mkTagEntry_eq tg nm
    rw [hmapeq, count_map_tagEntry]
    exact count_one_of_mem_nodupL hnodup (List.mem_map_of_mem _ htag)
  have h2 : List.count (tagEntryOf nm (escape_latex tag))
      (match m.author with
       | some a => [("\\index\x7bAuthors!").data ++ escape_latex a ++ ("!").data
           ++ escape_latex nm ++ ("\x7d\n").data]
       | none => []) = 0 := by
    rcases ha : m.author with - | a
    · simp
    · rw [List.count_eq_zero]
      intro hmem
      rw [List.mem_singleton] at hmem
      rw [author_entry_eq] at hmem
      exact hauthor a ha (tagEntryOf_inj nm hmem.symm).symm
  have h0 : ((("\\index\x7b").data ++ escape_latex nm ++ ("\x7d\n").data)
      == tagEntryOf nm (escape_latex tag)) = false := by
    rw [beq_eq_false_iff_ne]
    exact primary_ne_tagEntryOf nm (escape_latex tag)
  rw [List.count_cons, List.count_append, h1, h2, h0]
  simp

/-- C6: with indexing enabled and a comma-space tag list in the `tags`
metadata, the recipe's emitted index entries are the primary entry
followed by exactly one secondary entry per tag, in list order, each
nested under the (escaped) tag and referencing the recipe's (escaped)
display name; and — when the escaped tags are distinct and no other
emitted write collides with a tag entry — each tag's entry appears
exactly once among all of the recipe's writes. -/
theorem c6_tag_index_entries (cfg : Config)
    (conv : List Char → Option (List Char) × Metadata)
    (img : List Char → Option (List Char)) (p t : List Char)
    (hidx : cfg.include_index = true)
    (htags : (conv p).2.tags = some t) :
    indexWrites cfg (displayName p) (conv p).2
      = (("\\index\x7b").data ++ escape_latex (displayName p) ++ ("\x7d\n").data)
        :: ((pySplitSep (", ".data) t).map (fun tag => mkTagEntry tag (displayName p))
            ++ (match (conv p).2.author with
                | some a => [("\\index\x7bAuthors!").data ++ escape_latex a ++ ("!").data
                    ++ escape_latex (displayName p) ++ ("\x7d\n").data]
                | none => []))
    ∧ (((pySplitSep (", ".data) t).map escape_latex).Nodup →
        (∀ a, (conv p).2.author = some a → ∀ tag ∈ pySplitSep (", ".data) t,
          escape_latex tag ≠ ("Authors!").data ++ escape_latex a) →
        (∀ tag ∈ pySplitSep (", ".data) t,
          (conv p).1 ≠ some (mkTagEntry tag (displayName p))) →
        ∀ tag ∈ pySplitSep (", ".data) t,
          List.count (mkTagEntry tag (displayName p)) (recipeWrites cfg conv img p) = 1) := by
  constructor
  · unfold indexWrites
    rw [if_pos hidx, htags]
  · intro hnodup hauthor hcontent tag htag
    unfold recipeWrites
    rw [mkTagEntry_eq]
    rw [List.count_append, List.count_append, List.count_append, List.count_append]
    rw [count_metaComment_zero, count_titleBlock_zero, count_imageWrites_zero]
    rw [count_contentWrites_zero _ _ _ (by rw [← mkTagEntry_eq]; exact hcontent tag htag)]
    rw [count_indexWrites_one cfg (displayName p) (conv p).2 t tag hidx htags hnodup
      (fun a ha => hauthor a ha tag htag) htag]

def convTagEx : List Char → Option (List Char) × Metadata :=
  fun _ => (none, ⟨none, some ("a, b".data), none, none, none, none, none⟩)

theorem c6_witness :
    List.count (mkTagEntry ("a".data) (displayName ("r.cook".data)))
      (recipeWrites cfgEx convTagEx imgNone ("r.cook".data)) = 1 :=
  (c6_tag_index_entries cfgEx convTagEx imgNone ("r.cook".data) ("a, b".data) rfl rfl).2
    (by decide)
    (fun a ha => Option.noConfusion ha)
    (fun tag _ h => Option.noConfusion h)
    ("a".data) (by decide)

end Cookbook
